import Mathlib

/-!
Verification of the codebase-summarizer fact-extraction engine.

Shallow embedding of the JavaScript sources: strings are `String`/`List Char`,
JS objects (insertion-ordered string-keyed maps) are association lists,
JS `Set`s are duplicate-free lists in insertion order, `Array.prototype.sort()`
on duplicate-free string arrays is a stable insertion sort by UTF-16/code-point
order, and per-file regex match lists are taken as inputs where a claim is
about fold/merge logic rather than the lexical scanning itself.
-/

namespace CodebaseSummarizer

/-! ## Basic character and string operations (ASCII model of the JS ones) -/

/-- JS `\s` for the ASCII range: space, tab, LF, CR, VT, FF. -/
def isWs (c : Char) : Bool :=
  c == ' ' || c == '\t' || c == '\n' || c == '\r' || c.toNat == 11 || c.toNat == 12

/-- JS `String.prototype.trim` (ASCII whitespace model). -/
def trimL (l : List Char) : List Char :=
  ((l.dropWhile isWs).reverse.dropWhile isWs).reverse

/-- JS `str.replace(/\s+/g, ' ')`: collapse every whitespace run to one space. -/
def squeezeWs : List Char → List Char
  | [] => []
  | [c] => if isWs c then [' '] else [c]
  | c :: d :: rest =>
    if isWs c && isWs d then squeezeWs (d :: rest)
    else (if isWs c then ' ' else c) :: squeezeWs (d :: rest)

/-- Lower-case a character list (JS `toLowerCase`, ASCII). -/
def lowStr (l : List Char) : List Char := l.map Char.toLower

/-- Upper-case a character list (JS `toUpperCase`, ASCII). -/
def upStr (l : List Char) : List Char := l.map Char.toUpper

/-- Does `l` begin with `pat`? (list-level `startsWith`). -/
def headMatches : List Char → List Char → Bool
  | [], _ => true
  | _ :: _, [] => false
  | p :: ps, c :: cs => p == c && headMatches ps cs

/-- JS `String.prototype.includes`: `pat` occurs as a contiguous substring. -/
def hasSub (pat : List Char) : List Char → Bool
  | [] => headMatches pat []
  | c :: cs => headMatches pat (c :: cs) || hasSub pat cs

/-- JS `String.prototype.endsWith` at the character-list level. -/
def endsWithL (suf l : List Char) : Bool := headMatches suf.reverse l.reverse

/-- JS `name.charAt(0).toUpperCase() + name.slice(1)`. -/
def capFirst (s : String) : String :=
  match s.toList with
  | [] => ""
  | c :: cs => String.mk (c.toUpper :: cs)

/-- Code-point comparison of character lists: the order JS string comparison
(`<`, and the default `Array.prototype.sort` comparator) uses on these ASCII
inputs. -/
def listCharLe : List Char → List Char → Bool
  | [], _ => true
  | _ :: _, [] => false
  | a :: as, b :: bs =>
    if a.toNat < b.toNat then true
    else if b.toNat < a.toNat then false
    else listCharLe as bs

/-- String comparison used by the JS default sort comparator. -/
def strLe (a b : String) : Bool := listCharLe a.toList b.toList

/-- Stable insertion of a string into a sorted list. -/
def insTo (a : String) : List String → List String
  | [] => [a]
  | b :: bs => if strLe a b then a :: b :: bs else b :: insTo a bs

/-- Model of JS `array.sort()` on arrays of strings: insertion sort by
`strLe`.  On the duplicate-free arrays the summarizer sorts, any comparison
sort produces this same output. -/
def sortStr : List String → List String
  | [] => []
  | a :: as => insTo a (sortStr as)

/-- JS `Set.prototype.add`: append if not already present. -/
def addSet (l : List String) (x : String) : List String :=
  if x ∈ l then l else l ++ [x]

/-! ## ApiRouteExtractor (src/apiRouteExtractor.js) -/

/-- State automaton for `route.replace(/:[^\/]+/g, ':id')`: in run mode
(second argument `true`) the matched `[^\/]+` characters are being consumed. -/
def cpGo : List Char → Bool → List Char
  | [], _ => []
  | c :: cs, true => if c == '/' then '/' :: cpGo cs false else cpGo cs true
  | [':'], false => [':']
  | ':' :: d :: ds, false =>
    if d == '/' then ':' :: cpGo (d :: ds) false
    else ':' :: 'i' :: 'd' :: cpGo (d :: ds) true
  | c :: cs, false => c :: cpGo cs false

/-- `route.replace(/:[^\/]+/g, ':id')`. -/
def collapseParams (l : List Char) : List Char := cpGo l false

/-- Is there a `]` ahead before any line terminator?  (JS `.` does not match
line terminators, so `\[.*?\]` fails when none exists.) -/
def hasCloseNoNl : List Char → Bool
  | [] => false
  | c :: cs =>
    if c == ']' then true
    else if c == '\n' || c == '\r' then false
    else hasCloseNoNl cs

/-- State automaton for `route.replace(/\[.*?\]/g, ':id')`: in skip mode the
lazily matched body up to the first `]` is being consumed. -/
def cbGo : List Char → Bool → List Char
  | [], _ => []
  | c :: cs, true => if c == ']' then cbGo cs false else cbGo cs true
  | c :: cs, false =>
    if c == '[' && hasCloseNoNl cs then ':' :: 'i' :: 'd' :: cbGo cs true
    else c :: cbGo cs false

/-- `route.replace(/\[.*?\]/g, ':id')`. -/
def collapseBrackets (l : List Char) : List Char := cbGo l false

/-- `route.split('?')[0]`. -/
def cutQuery (l : List Char) : List Char := l.takeWhile (fun c => c ≠ '?')

/-- `route.replace(/\/+$/, '')`: strip the trailing run of slashes. -/
def dropTrailSlashes : List Char → List Char
  | [] => []
  | c :: cs =>
    match dropTrailSlashes cs with
    | [] => if c == '/' then [] else [c]
    | r => c :: r

/-- `ApiRouteExtractor.normalizeRoute`. -/
def normalizeRoute (route : String) : String :=
  if (dropTrailSlashes (cutQuery (collapseBrackets (collapseParams route.toList)))).isEmpty
  then "/"
  else String.mk (dropTrailSlashes (cutQuery (collapseBrackets (collapseParams route.toList))))

/-- Zero or more `(:id\/?)` groups reaching the end of the string (the body of
the skip pattern `^\/(:id\/?)+$`).  The regex alternative that declines the
optional slash would leave a leading `/`, which can start neither a further
group nor the end anchor, so that backtracking branch is identically false
and is omitted. -/
def phTail : List Char → Bool
  | [] => true
  | ':' :: 'i' :: 'd' :: '/' :: r2 => phTail r2
  | ':' :: 'i' :: 'd' :: rest => phTail rest
  | _ => false

/-- The skip pattern `^\/(:id\/?)+$`. -/
def placeholderOnly (l : List Char) : Bool :=
  match l with
  | '/' :: rest => !rest.isEmpty && phTail rest
  | _ => false

/-- The skip pattern `^\/+$`. -/
def slashOnly (l : List Char) : Bool := !l.isEmpty && l.all (· == '/')

/-- Case-insensitive anchored test used by `/^\/middleware/i` and friends
(`pat` given in lower case). -/
def startsCI (pat : String) (l : List Char) : Bool := headMatches pat.toList (lowStr l)

/-- `ApiRouteExtractor.isValid`. -/
def isValid (route : String) : Bool :=
  !(slashOnly route.toList || placeholderOnly route.toList ||
    startsCI "/middleware" route.toList || startsCI "/test" route.toList ||
    startsCI "/health" route.toList)

/-- `ApiRouteExtractor.isInternal`: fixed keyword patterns, case-insensitive
substring tests. -/
def isInternal (route : String) : Bool :=
  hasSub "/admin".toList (lowStr route.toList) ||
  hasSub "/internal".toList (lowStr route.toList) ||
  hasSub "/debug".toList (lowStr route.toList) ||
  hasSub "/metrics".toList (lowStr route.toList) ||
  hasSub "/analytics".toList (lowStr route.toList) ||
  hasSub "/cron".toList (lowStr route.toList) ||
  hasSub "/webhook".toList (lowStr route.toList) ||
  hasSub "/logs".toList (lowStr route.toList)

/-- `route.startsWith('/')`. -/
def startsSlash (route : String) : Bool :=
  match route.toList with
  | '/' :: _ => true
  | _ => false

/-- The two route sets accumulated by `ApiRouteExtractor`. -/
structure RouteState where
  publicRoutes : List String
  internalRoutes : List String
deriving DecidableEq

/-- The per-match body of `ApiRouteExtractor.processFile`: skip routes not
starting with `/`, normalize, validate, classify. -/
def routeStep (st : RouteState) (raw : String) : RouteState :=
  if startsSlash raw then
    if isValid (normalizeRoute raw) then
      if isInternal (normalizeRoute raw) then
        { st with internalRoutes := addSet st.internalRoutes (normalizeRoute raw) }
      else
        { st with publicRoutes := addSet st.publicRoutes (normalizeRoute raw) }
    else st
  else st

/-- `ApiRouteExtractor.processFile`: a file is either unreadable (`none`; the
`try/catch` swallows the error and the file contributes nothing) or yields its
list of raw route-literal matches in text order. -/
def processFile (st : RouteState) (file : Option (List String)) : RouteState :=
  match file with
  | none => st
  | some raws => raws.foldl routeStep st

/-- `ApiRouteExtractor.extract`: fold all files, then sort each set and take
the first `limit` entries. -/
def extractRoutes (files : List (Option (List String))) (limit : Nat) :
    List String × List String :=
  ((sortStr (files.foldl processFile ⟨[], []⟩).publicRoutes).take limit,
   (sortStr (files.foldl processFile ⟨[], []⟩).internalRoutes).take limit)

/-! ## JS-object association maps -/

/-- A JS object used as a string-keyed map: insertion-ordered association
list.  `setKey` is `obj[k] = v` (update in place or append), `getKey` is
`obj[k]`. -/
def setKey : List (String × String) → String → String → List (String × String)
  | [], k, v => [(k, v)]
  | (k', v') :: rest, k, v =>
    if k' = k then (k', v) :: rest else (k', v') :: setKey rest k v

/-- Lookup in a JS-object map. -/
def getKey : List (String × String) → String → Option String
  | [], _ => none
  | (k', v') :: rest, k => if k' = k then some v' else getKey rest k

/-- JS falsy test `!obj[k]` for a map whose values are strings: true when the
key is absent or holds the empty string. -/
def falsyAt (m : List (String × String)) (k : String) : Bool :=
  match getKey m k with
  | none => true
  | some v => v = ""

/-! ## AuthPolicyExtractor (authPolicyExtractor.js) -/

/-- The `authPatterns` table of `extractAuthPolicyFromMiddleware`, in object
insertion order. -/
def authPatterns : List (String × String) :=
  [("authMiddleware.isAuthenticated", "Authenticated"),
   ("authMiddleware.isAdmin", "AdminOnly"),
   ("authMiddleware.isOwner", "OwnerOnly"),
   ("authMiddleware.requireAuth", "Authenticated"),
   ("requireAuth", "Authenticated"),
   ("requireLogin", "Authenticated"),
   ("isAuthenticated", "Authenticated"),
   ("isAdmin", "AdminOnly"),
   ("adminAuth", "AdminOnly"),
   ("userAuth", "UserAuth"),
   ("jwtAuth", "JWT Required"),
   ("authenticate", "Authenticated")]

/-- First table entry whose pattern occurs in the cleaned middleware text. -/
def firstPatternHit (cm : List Char) : List (String × String) → Option String
  | [] => none
  | (pat, policy) :: rest =>
    if hasSub pat.toList cm then some policy else firstPatternHit cm rest

/-- Is `c` one of the two JS quote characters in the `['"]` class? -/
def isQuote (c : Char) : Bool := c == '\'' || c == '"'

/-- After the lazily captured group: `['"]?\s*\)`.  The optional closing
quote, if present, must be followed by whitespace and `)` (declining a present
quote cannot succeed, since a quote is neither whitespace nor `)`). -/
def wsThenParen (l : List Char) : Bool :=
  match l.dropWhile isWs with
  | ')' :: _ => true
  | _ => false

/-- Can the tail of `['"](.*?)['"]?\s*\)` close at this point? -/
def canClose : List Char → Bool
  | [] => wsThenParen []
  | c :: r => if isQuote c then wsThenParen r else wsThenParen (c :: r)

/-- The lazy capture `(.*?)` of the role/permission regexes: the shortest
character run (not crossing a line terminator) after which `['"]?\s*\)`
matches; `none` when the whole-pattern match fails at this start position. -/
def lazyCap : List Char → Option (List Char)
  | [] => if canClose [] then some [] else none
  | c :: cs =>
    if canClose (c :: cs) then some []
    else if c == '\n' || c == '\r' then none
    else (lazyCap cs).map (fun t => c :: t)

/-- Try `lit\s*\(\s*['"](.*?)['"]?\s*\)` anchored at the head of `s`,
returning the captured group. -/
def callCapHere (lit : List Char) (s : List Char) : Option (List Char) :=
  if headMatches lit s then
    match (s.drop lit.length).dropWhile isWs with
    | '(' :: r2 =>
      match r2.dropWhile isWs with
      | q :: r4 => if isQuote q then lazyCap r4 else none
      | [] => none
    | _ => none
  else none

/-- Leftmost match of `litA ...|litB ...` over `s`, alternative `litA`
preferred at each position, as the JS regex engine scans. -/
def scanCall (litA litB : List Char) : List Char → Option (List Char)
  | [] => (callCapHere litA []).orElse (fun _ => callCapHere litB [])
  | c :: cs =>
    ((callCapHere litA (c :: cs)).orElse
      (fun _ => callCapHere litB (c :: cs))).orElse
      (fun _ => scanCall litA litB cs)

/-- Policy recognition of `extractAuthPolicyFromMiddleware` on the already
cleaned middleware text. -/
def authPolicyOfClean (cm : List Char) : Option String :=
  match firstPatternHit cm authPatterns with
  | some policy => some policy
  | none =>
    match scanCall "role".toList "requireRole".toList cm with
    | some role => some ("Role: " ++ String.mk role)
    | none =>
      match scanCall "permission".toList "requirePermission".toList cm with
      | some perm => some ("Permission: " ++ String.mk perm)
      | none =>
        if hasSub "auth".toList cm || hasSub "Auth".toList cm then some "Custom Auth"
        else none

/-- `AuthPolicyExtractor.extractAuthPolicyFromMiddleware`:
`middleware.replace(/\s+/g, ' ').trim()` then the pattern battery. -/
def extractAuthPolicyFromMiddleware (middleware : String) : Option String :=
  authPolicyOfClean (trimL (squeezeWs middleware.toList))

/-- `METHOD route` key: the method group is upper-cased. -/
def routeKey (method route : String) : String :=
  String.mk (upStr method.toList) ++ " " ++ route

/-- One route-level middleware match `(method, route, middleware)`: an
extracted policy is written unconditionally. -/
def routeLocalStep (st : List (String × String)) (m : String × String × String) :
    List (String × String) :=
  match extractAuthPolicyFromMiddleware m.2.2 with
  | some policy => setKey st (routeKey m.1 m.2.1) policy
  | none => st

/-- First loop of `analyzeExpressMiddleware`: the route-level middleware
matches in text order. -/
def routeLocalPass (ms : List (String × String × String))
    (st : List (String × String)) : List (String × String) :=
  ms.foldl routeLocalStep st

/-- One write of `applyGlobalAuthPolicy`: only where the key is still unset
(falsy). -/
def globalWrite (policy : String) (st : List (String × String))
    (r : String × String) : List (String × String) :=
  if falsyAt st (routeKey r.1 r.2) then setKey st (routeKey r.1 r.2) policy else st

/-- `AuthPolicyExtractor.applyGlobalAuthPolicy`: write the policy for every
route match in the file, only where the key is still unset. -/
def applyGlobalAuthPolicy (allRoutes : List (String × String)) (policy : String)
    (st : List (String × String)) : List (String × String) :=
  allRoutes.foldl (globalWrite policy) st

/-- One write of `applyPathBasedAuthPolicy`: the route must start with the
base path and the key must still be unset. -/
def pathWrite (basePath policy : String) (st : List (String × String))
    (r : String × String) : List (String × String) :=
  if headMatches basePath.toList r.2.toList && falsyAt st (routeKey r.1 r.2) then
    setKey st (routeKey r.1 r.2) policy
  else st

/-- `AuthPolicyExtractor.applyPathBasedAuthPolicy`. -/
def applyPathBasedAuthPolicy (allRoutes : List (String × String))
    (basePath policy : String) (st : List (String × String)) :
    List (String × String) :=
  allRoutes.foldl (pathWrite basePath policy) st

/-- One `router.use(mw)` match of the second loop. -/
def globalUseStep (allRoutes : List (String × String))
    (st : List (String × String)) (mw : String) : List (String × String) :=
  match extractAuthPolicyFromMiddleware mw with
  | some policy => applyGlobalAuthPolicy allRoutes policy st
  | none => st

/-- Second loop of `analyzeExpressMiddleware`: `router.use(mw)` matches. -/
def globalUsePass (uses : List String) (allRoutes : List (String × String))
    (st : List (String × String)) : List (String × String) :=
  uses.foldl (globalUseStep allRoutes) st

/-- One `router.use('/base', mw)` match of the third loop. -/
def condUseStep (allRoutes : List (String × String))
    (st : List (String × String)) (c : String × String) : List (String × String) :=
  match extractAuthPolicyFromMiddleware c.2 with
  | some policy => applyPathBasedAuthPolicy allRoutes c.1 policy st
  | none => st

/-- Third loop of `analyzeExpressMiddleware`: `router.use('/base', mw)`
matches as `(basePath, middleware)`. -/
def condUsePass (conds : List (String × String)) (allRoutes : List (String × String))
    (st : List (String × String)) : List (String × String) :=
  conds.foldl (condUseStep allRoutes) st

/-- `AuthPolicyExtractor.analyzeExpressMiddleware` over one file's match
lists: the three loops run in program order — route-level first, then plain
`router.use`, then path-scoped `router.use` — regardless of where the
fragments sit in the source text.  `allRoutes` is the match list of the
route-scan regex the two `apply*` helpers run over the same content. -/
def analyzeExpressMiddleware (routeMw : List (String × String × String))
    (uses : List String) (conds : List (String × String))
    (allRoutes : List (String × String)) (st : List (String × String)) :
    List (String × String) :=
  condUsePass conds allRoutes (globalUsePass uses allRoutes (routeLocalPass routeMw st))

/-! ## ServiceInteractionExtractor (serviceInteractionExtractor.js) -/

/-- `ServiceInteractionExtractor.normalizeServiceName`. -/
def normalizeServiceName (name : String) : String :=
  let normalized := capFirst name
  if hasSub "service".toList (lowStr normalized.toList) ||
     hasSub "controller".toList (lowStr normalized.toList) then
    normalized
  else if endsWithL "Service".toList normalized.toList ||
          endsWithL "Controller".toList normalized.toList then
    normalized
  else normalized ++ "Service"

/-- `ServiceInteractionExtractor.isServiceImport`. -/
def isServiceImport (importPath : String) : Bool :=
  let l := importPath.toList
  hasSub "service".toList l || hasSub "Service".toList l ||
  hasSub "controller".toList l || hasSub "Controller".toList l ||
  hasSub "/services/".toList l

/-- `filename.replace(/\.(js|ts)$/, '')`. -/
def stripJsExt (l : List Char) : List Char :=
  if endsWithL ".js".toList l || endsWithL ".ts".toList l then l.take (l.length - 3)
  else l

/-- `importPath.split('/')`, keeping empty pieces, as JS `split` does. -/
def splitOnChar (sep : Char) : List Char → List (List Char)
  | [] => [[]]
  | c :: cs =>
    if c == sep then [] :: splitOnChar sep cs
    else
      match splitOnChar sep cs with
      | p :: ps => (c :: p) :: ps
      | [] => [[c]]

/-- `ServiceInteractionExtractor.extractServiceNameFromPath`. -/
def extractServiceNameFromPath (importPath : String) : Option String :=
  let parts := splitOnChar '/' importPath.toList
  let filename := parts.getLastD []
  let cleanName := stripJsExt filename
  if hasSub "Service".toList cleanName || hasSub "Controller".toList cleanName then
    some (normalizeServiceName (String.mk cleanName))
  else none

/-- Truthiness guard `if (serviceName) dependencies.add(serviceName)`. -/
def addIfTruthy (deps : List String) (name : String) : List String :=
  if name = "" then deps else addSet deps name

/-- One import-signal step of `analyzeImports`: a service-looking path whose
file stem names a Service/Controller contributes its normalized name. -/
def importStep (d : List String) (p : String) : List String :=
  if isServiceImport p then
    match extractServiceNameFromPath p with
    | some n => addIfTruthy d n
    | none => d
  else d

/-- The dependency set built by `ServiceInteractionExtractor.analyzeServiceFile`
from the per-signal match lists, in program order: ES6 imports, CommonJS
requires, constructor property injections, constructor parameter injections,
direct instantiations (added verbatim), `this.*[Ss]ervice*` method-call
properties (normalized), and static service calls (added verbatim). -/
def collectDeps (importPaths requirePaths ctorProps ctorParams instantiations
    methodProps staticCalls : List String) : List String :=
  staticCalls.foldl (fun d n => addSet d n)
    (methodProps.foldl (fun d n => addIfTruthy d (normalizeServiceName n))
      (instantiations.foldl (fun d n => addSet d n)
        (ctorParams.foldl (fun d n => addIfTruthy d (normalizeServiceName n))
          (ctorProps.foldl (fun d n => addIfTruthy d (normalizeServiceName n))
            (requirePaths.foldl importStep
              (importPaths.foldl importStep []))))))

/-- The per-service dependency list stored by `analyzeServiceFile` when the
set is non-empty: `Array.from(dependencies).sort()`. -/
def depsEntry (importPaths requirePaths ctorProps ctorParams instantiations
    methodProps staticCalls : List String) : List String :=
  sortStr (collectDeps importPaths requirePaths ctorProps ctorParams
    instantiations methodProps staticCalls)

/-! ## DbModelExtractor (dbModelExtractor.js): mongoose field parsing -/

/-- `match` of a one-alternative regex `lit` followed by continuation `cont`:
leftmost start position wins, and a position where the continuation fails is
abandoned for the next one, as the JS engine scans. -/
def scanFor {α : Type} (lit : List Char) (cont : List Char → Option α) :
    List Char → Option α
  | [] => if headMatches lit [] then cont [] else none
  | c :: cs =>
    (if headMatches lit (c :: cs) then cont ((c :: cs).drop lit.length) else none).orElse
      (fun _ => scanFor lit cont cs)

/-- Character class `[A-Za-z.]` of the `type:` capture. -/
def isAlphaDot (c : Char) : Bool :=
  ('A' ≤ c && c ≤ 'Z') || ('a' ≤ c && c ≤ 'z') || c == '.'

/-- Continuation of `/type:\s*([A-Za-z.]+)/` after the literal. -/
def contTypeTok (rest : List Char) : Option (List Char) :=
  let r := rest.dropWhile isWs
  let run := r.takeWhile isAlphaDot
  if run.isEmpty then none else some run

/-- Continuation of `/required:\s*(true|false)/` after the literal. -/
def contBoolTok (rest : List Char) : Option (List Char) :=
  let r := rest.dropWhile isWs
  if headMatches "true".toList r then some "true".toList
  else if headMatches "false".toList r then some "false".toList
  else none

/-- Continuation of `/default:\s*([^,}]+)/` after the literal: greedy `\s*`
then at least one `[^,}]` character; when only whitespace precedes the
terminator the engine backtracks `\s*` by one character, capturing it. -/
def contDefaultTok (rest : List Char) : Option (List Char) :=
  let w := rest.takeWhile isWs
  let r := rest.dropWhile isWs
  let run := r.takeWhile (fun c => c ≠ ',' && c ≠ '}')
  if !run.isEmpty then some run
  else
    match w.getLast? with
    | some c => some [c]
    | none => none

/-- Continuation of `/enum:\s*\[([^\]]+)\]/` after the literal. -/
def contEnumTok (rest : List Char) : Option (List Char) :=
  match rest.dropWhile isWs with
  | '[' :: r2 =>
    let run := r2.takeWhile (fun c => c ≠ ']')
    if run.isEmpty then none
    else
      match r2.drop run.length with
      | ']' :: _ => some run
      | _ => none
  | _ => none

/-- Render a list of strings with a separator (JS `Array.prototype.join`). -/
def joinSep (sep : String) : List String → String
  | [] => ""
  | [x] => x
  | x :: xs => x ++ sep ++ joinSep sep xs

/-- The `typeMap` of `DbModelExtractor.normalizeMongooseType`. -/
def mongooseTypeMap : List (String × String) :=
  [("String", "String"), ("Number", "Number"), ("Boolean", "Boolean"),
   ("Date", "Date"), ("ObjectId", "ObjectId"), ("Mixed", "Mixed"),
   ("Array", "Array"), ("Buffer", "Buffer")]

/-- Exact-key lookup in a literal JS object. -/
def lookupTable : List (String × String) → String → Option String
  | [], _ => none
  | (k, v) :: rest, t => if k = t then some v else lookupTable rest t

/-- `DbModelExtractor.normalizeMongooseType`: `typeMap[type] || type ||
'Unknown'`. -/
def normalizeMongooseType (t : String) : String :=
  match lookupTable mongooseTypeMap t with
  | some v => v
  | none => if t = "" then "Unknown" else t

/-- `v.trim().replace(/['"]/g, '')` applied to one enum alternative. -/
def cleanEnumValue (v : List Char) : String :=
  String.mk ((trimL v).filter (fun c => c ≠ '\'' && c ≠ '"'))

/-- The type component of `parseMongooseFieldDefinition`: the `enum:` match
overrides the `type:` match, which defaults to `Unknown`. -/
def mongooseTypePart (l : List Char) : String :=
  match scanFor "enum:".toList contEnumTok l with
  | some inner =>
    "Enum(" ++ joinSep ", " ((splitOnChar ',' inner).map cleanEnumValue) ++ ")"
  | none =>
    match scanFor "type:".toList contTypeTok l with
    | some t => normalizeMongooseType (String.mk t)
    | none => "Unknown"

/-- The modifier list of `parseMongooseFieldDefinition`: `required` when the
`required:` match captured `true`, then the trimmed `default:` capture. -/
def mongooseModsPart (l : List Char) : List String :=
  (if scanFor "required:".toList contBoolTok l = some "true".toList
   then ["required"] else []) ++
  (match scanFor "default:".toList contDefaultTok l with
   | some d => ["default: " ++ String.mk (trimL d)]
   | none => [])

/-- `DbModelExtractor.parseMongooseFieldDefinition`. -/
def parseMongooseFieldDefinition (definition : String) : String :=
  if (mongooseModsPart definition.toList).isEmpty then mongooseTypePart definition.toList
  else
    mongooseTypePart definition.toList ++ " (" ++
    joinSep ", " (mongooseModsPart definition.toList) ++ ")"

/-- One detailed per-field-object match `(name, body)`: written
unconditionally. -/
def mongooseDetailStep (m : List (String × String)) (p : String × String) :
    List (String × String) :=
  setKey m (String.mk (trimL p.1.toList)) (parseMongooseFieldDefinition p.2)

/-- First loop of `DbModelExtractor.parseMongooseFields`: the detailed
matches in text order. -/
def detailedPass (detailed : List (String × String)) : List (String × String) :=
  detailed.foldl mongooseDetailStep []

/-- One simple one-line match `(name, type)`: written only when the field is
still unset (falsy). -/
def mongooseSimpleStep (m : List (String × String)) (p : String × String) :
    List (String × String) :=
  if falsyAt m (String.mk (trimL p.1.toList)) then
    setKey m (String.mk (trimL p.1.toList))
      (normalizeMongooseType (String.mk (trimL p.2.toList)))
  else m

/-- `DbModelExtractor.parseMongooseFields` over the two match lists of one
`fieldsDefinition`: the detailed pass runs first, then the simple pass. -/
def parseMongooseFields (detailed simple : List (String × String)) :
    List (String × String) :=
  simple.foldl mongooseSimpleStep (detailedPass detailed)

/-! ## Summarizer (summarizer.js) and JSON emission (index.js) -/

/-- Hex digit for the low control-character escapes of `JSON.stringify`. -/
def hexDig (n : Nat) : Char :=
  if n < 10 then Char.ofNat (48 + n) else Char.ofNat (87 + n)

/-- String escaping of `JSON.stringify` (inputs here are ASCII). -/
def escChar (c : Char) : List Char :=
  if c == '"' then ['\\', '"']
  else if c == '\\' then ['\\', '\\']
  else if c == '\n' then ['\\', 'n']
  else if c == '\t' then ['\\', 't']
  else if c == '\r' then ['\\', 'r']
  else if c.toNat == 8 then ['\\', 'b']
  else if c.toNat == 12 then ['\\', 'f']
  else if c.toNat < 32 then
    ['\\', 'u', '0', '0', hexDig (c.toNat / 16), hexDig (c.toNat % 16)]
  else [c]

/-- Escape a whole string for JSON emission. -/
def jsEscape (s : String) : String := String.mk (s.toList.flatMap escChar)

/-- A JSON string literal. -/
def quoteStr (s : String) : String := "\"" ++ jsEscape s ++ "\""

/-- `n` spaces of `JSON.stringify(_, null, 2)` indentation. -/
def nspaces (n : Nat) : String := String.mk (List.replicate n ' ')

/-- An array of rendered items, opened at indent `k` (items at `k + 2`). -/
def jArr (k : Nat) (items : List String) : String :=
  if items.isEmpty then "[]"
  else "[\n" ++ joinSep ",\n" (items.map (fun it => nspaces (k + 2) ++ it)) ++
       "\n" ++ nspaces k ++ "]"

/-- An object of rendered fields, opened at indent `k` (fields at `k + 2`). -/
def jObj (k : Nat) (fields : List (String × String)) : String :=
  if fields.isEmpty then "\x7b\x7d"
  else
    "\x7b\n" ++
    joinSep ",\n"
      (fields.map (fun p => nspaces (k + 2) ++ quoteStr p.1 ++ ": " ++ p.2)) ++
    "\n" ++ nspaces k ++ "\x7d"

/-- An array of plain strings at indent `k`. -/
def jStrArr (k : Nat) (l : List String) : String := jArr k (l.map quoteStr)

/-- An object whose values are plain strings, at indent `k`. -/
def jStrObj (k : Nat) (l : List (String × String)) : String :=
  jObj k (l.map (fun p => (p.1, quoteStr p.2)))

/-- The extractor outputs `Summarizer.analyze` copies into `this.summary`,
before `applyLimits`.  Maps keep JS-object insertion order. -/
structure ExtractedFacts where
  git : List (String × String)
  modules : List String
  businessServices : List String
  utilityServices : List String
  publicRoutes : List String
  internalRoutes : List String
  dbModels : List String
  utilsByDomain : List (String × List String)
  utilsFiles : List String
  frontend : String
  backend : String
  globalPatterns : List String
  serviceDependencies : List (String × List String)
  schemaSnapshots : List (String × List (String × String))
  apiPayloads : List (String × (List (String × String) × List (String × String)))
  authPolicies : List (String × String)
  businessFlows : List (String × List (String × List String))
deriving DecidableEq

/-- The `this.summary` object of `Summarizer`, top-level keys in insertion
order. -/
structure Summary where
  schemaVersion : String
  generatedAt : String
  git : List (String × String)
  modules : List String
  businessServices : List String
  utilityServices : List String
  publicRoutes : List String
  internalRoutes : List String
  dbModels : List String
  utilsByDomain : List (String × List String)
  utilsFiles : List String
  frontend : String
  backend : String
  globalPatterns : List String
  serviceDependencies : List (String × List String)
  schemaSnapshots : List (String × List (String × String))
  apiPayloads : List (String × (List (String × String) × List (String × String)))
  authPolicies : List (String × String)
  businessFlows : List (String × List (String × List String))
deriving DecidableEq

/-- `Summarizer.analyze` assembling `this.summary`: `schemaVersion` is the
constant `'3.0.0'`, `generatedAt` is `new Date().toISOString()` at run time
(passed in as `now`), everything else comes from the extractors. -/
def mkSummary (now : String) (f : ExtractedFacts) : Summary :=
  { schemaVersion := "3.0.0"
    generatedAt := now
    git := f.git
    modules := f.modules
    businessServices := f.businessServices
    utilityServices := f.utilityServices
    publicRoutes := f.publicRoutes
    internalRoutes := f.internalRoutes
    dbModels := f.dbModels
    utilsByDomain := f.utilsByDomain
    utilsFiles := f.utilsFiles
    frontend := f.frontend
    backend := f.backend
    globalPatterns := f.globalPatterns
    serviceDependencies := f.serviceDependencies
    schemaSnapshots := f.schemaSnapshots
    apiPayloads := f.apiPayloads
    authPolicies := f.authPolicies
    businessFlows := f.businessFlows }

/-- `Summarizer.applyLimits`: slices exactly six arrays — modules, the two
service lists, the two route lists, and dbModels.  The deep-metadata maps
(serviceDependencies, schemaSnapshots, apiPayloads, authPolicies,
businessFlows) and everything inside them are left untouched. -/
def applyLimits (limit : Nat) (s : Summary) : Summary :=
  { s with
    modules := s.modules.take limit
    businessServices := s.businessServices.take limit
    utilityServices := s.utilityServices.take limit
    publicRoutes := s.publicRoutes.take limit
    internalRoutes := s.internalRoutes.take limit
    dbModels := s.dbModels.take limit }

/-- The top-level field list of the emitted document, each value already
rendered, in `this.summary` insertion order (what
`JSON.stringify(summary, null, 2)` walks). -/
def topFields (s : Summary) : List (String × String) :=
  [("schemaVersion", quoteStr s.schemaVersion),
   ("generatedAt", quoteStr s.generatedAt),
   ("git", jStrObj 2 s.git),
   ("modules", jStrArr 2 s.modules),
   ("services", jObj 2 [("businessServices", jStrArr 4 s.businessServices),
                        ("utilityServices", jStrArr 4 s.utilityServices)]),
   ("apiRoutes", jObj 2 [("publicRoutes", jStrArr 4 s.publicRoutes),
                         ("internalRoutes", jStrArr 4 s.internalRoutes)]),
   ("dbModels", jStrArr 2 s.dbModels),
   ("utils", jObj 2 [("byDomain", jObj 4 (s.utilsByDomain.map
                        (fun p => (p.1, jStrArr 6 p.2)))),
                     ("files", jStrArr 4 s.utilsFiles)]),
   ("frameworks", jObj 2 [("frontend", quoteStr s.frontend),
                          ("backend", quoteStr s.backend)]),
   ("globalPatterns", jStrArr 2 s.globalPatterns),
   ("serviceDependencies", jObj 2 (s.serviceDependencies.map
      (fun p => (p.1, jStrArr 4 p.2)))),
   ("schemaSnapshots", jObj 2 (s.schemaSnapshots.map
      (fun p => (p.1, jStrObj 4 p.2)))),
   ("apiPayloads", jObj 2 (s.apiPayloads.map
      (fun p => (p.1, jObj 4 [("request", jStrObj 6 p.2.1),
                              ("response", jStrObj 6 p.2.2)])))),
   ("authPolicies", jStrObj 2 s.authPolicies),
   ("businessFlows", jObj 2 (s.businessFlows.map
      (fun p => (p.1, jObj 4 (p.2.map (fun q => (q.1, jStrArr 6 q.2)))))))]

/-- `JSON.stringify(summary, null, 2)`: the byte content `run` writes to the
output file. -/
def summaryJson (s : Summary) : String := jObj 0 (topFields s)

/-- One complete run of the tool on a fixed
file set: the facts are extracted, stamped with the wall-clock time `now`,
limited, and serialized. -/
def runSummarizer (now : String) (limit : Nat) (f : ExtractedFacts) : String :=
  summaryJson (applyLimits limit (mkSummary now f))

/-- `DbModelExtractor.extract` emission for model names:
`[...this.models].sort().slice(0, this.limit)`.  The `Set` is modeled as
first-insertion-order dedup. -/
def dbModelsEmitted (names : List String) (limit : Nat) : List String :=
  (sortStr (names.foldl addSet [])).take limit

/-- The emitted bytes before the quoted `generatedAt` value: constant across
runs. -/
def sPre : String :=
  "\x7b\n" ++
  (nspaces 2 ++ quoteStr "schemaVersion" ++ (": " ++ quoteStr "3.0.0" ++
  (",\n" ++ (nspaces 2 ++ quoteStr "generatedAt" ++ ": "))))

/-- The emitted bytes after the quoted `generatedAt` value: a function of the
extracted facts and the limit only. -/
def sPost (limit : Nat) (f : ExtractedFacts) : String :=
  ",\n" ++
  joinSep ",\n"
    (((topFields (applyLimits limit (mkSummary "" f))).drop 2).map
      (fun p => nspaces 2 ++ quoteStr p.1 ++ ": " ++ p.2)) ++
  ("\n" ++ (nspaces 0 ++ "\x7d"))

/-- A run in which every extractor found nothing. -/
def factsEmpty : ExtractedFacts :=
  { git := [], modules := [], businessServices := [], utilityServices := []
    publicRoutes := [], internalRoutes := [], dbModels := []
    utilsByDomain := [], utilsFiles := [], frontend := "", backend := ""
    globalPatterns := [], serviceDependencies := [], schemaSnapshots := []
    apiPayloads := [], authPolicies := [], businessFlows := [] }

/-- A run in which one service was found to depend on two others (the
dependency list is stored sorted, as `analyzeServiceFile` stores it). -/
def factsDeps : ExtractedFacts :=
  { factsEmpty with
    serviceDependencies := [("NotificationService", ["EmailService", "SmsService"])] }

/-! ## Helper lemmas: substring tests -/

theorem headMatches_iff {p l : List Char} : headMatches p l = true ↔ p <+: l := by
  induction p generalizing l with
  | nil => simp [headMatches]
  | cons x xs ih =>
    cases l with
    | nil => simp [headMatches]
    | cons c cs =>
      simp [headMatches, List.cons_prefix_cons, ih, Bool.and_eq_true, beq_iff_eq]

theorem hasSub_iff {p l : List Char} : hasSub p l = true ↔ p <:+: l := by
  induction l with
  | nil =>
    cases p <;> simp [hasSub, headMatches]
  | cons c cs ih =>
    simp [hasSub, headMatches_iff, ih, Bool.or_eq_true, List.infix_cons_iff]

theorem hasSub_append_right {p l₁ l₂ : List Char} (h : hasSub p l₂ = true) :
    hasSub p (l₁ ++ l₂) = true := by
  rw [hasSub_iff] at h ⊢
  exact h.trans (List.suffix_append l₁ l₂).isInfix

theorem hasSub_self {p : List Char} : hasSub p p = true := by
  rw [hasSub_iff]

theorem endsWithL_suffix {suf l : List Char} (h : endsWithL suf l = true) :
    suf <:+ l := by
  rw [endsWithL, headMatches_iff] at h
  exact List.reverse_prefix.mp h

theorem lowStr_append (a b : List Char) : lowStr (a ++ b) = lowStr a ++ lowStr b := by
  simp [lowStr]

/-- An accepted suffix is found, lowered, by a lowered substring search. -/
theorem hasSub_low_of_endsWith {suf l : List Char} (h : endsWithL suf l = true) :
    hasSub (lowStr suf) (lowStr l) = true := by
  obtain ⟨pre, rfl⟩ := endsWithL_suffix h
  rw [lowStr_append]
  exact hasSub_append_right hasSub_self

/-! ## Helper lemmas: characters and `capFirst` -/

theorem toNat_ofNat_valid {n : Nat} (h : n < 55296) : (Char.ofNat n).toNat = n := by
  unfold Char.ofNat
  rw [dif_pos (Or.inl h)]
  rfl

theorem toUpper_idem (c : Char) : c.toUpper.toUpper = c.toUpper := by
  unfold Char.toUpper
  by_cases h : c.toNat ≥ 97 ∧ c.toNat ≤ 122
  · rw [if_pos h]
    have hv : c.toNat - 32 < 55296 := by omega
    rw [toNat_ofNat_valid hv, if_neg (by omega)]
  · rw [if_neg h, if_neg h]

theorem toList_mk (l : List Char) : (String.mk l).toList = l := rfl

theorem capFirst_idem (s : String) : capFirst (capFirst s) = capFirst s := by
  unfold capFirst
  cases h : s.toList with
  | nil => rfl
  | cons c cs => simp [toList_mk, toUpper_idem]

/-! ## Helper lemmas: sorting -/

theorem listCharLe_total (a b : List Char) :
    listCharLe a b = true ∨ listCharLe b a = true := by
  induction a generalizing b with
  | nil => left; rfl
  | cons x xs ih =>
    cases b with
    | nil => right; rfl
    | cons y ys =>
      rcases Nat.lt_trichotomy x.toNat y.toNat with h | h | h
      · left; simp [listCharLe, h]
      · simp [listCharLe, h, Nat.lt_irrefl]
        exact ih ys
      · right; simp [listCharLe, h]

theorem listCharLe_trans {a b c : List Char} (hab : listCharLe a b = true)
    (hbc : listCharLe b c = true) : listCharLe a c = true := by
  induction a generalizing b c with
  | nil => rfl
  | cons x xs ih =>
    cases b with
    | nil => simp [listCharLe] at hab
    | cons y ys =>
      cases c with
      | nil => simp [listCharLe] at hbc
      | cons z zs =>
        simp only [listCharLe] at hab hbc ⊢
        split_ifs at hab hbc ⊢ <;> try omega
        all_goals first
          | rfl
          | exact ih hab hbc

theorem strLe_total (a b : String) : strLe a b = true ∨ strLe b a = true :=
  listCharLe_total a.toList b.toList

theorem strLe_trans {a b c : String} (hab : strLe a b = true)
    (hbc : strLe b c = true) : strLe a c = true :=
  listCharLe_trans hab hbc

theorem insTo_perm (a : String) (l : List String) : (insTo a l).Perm (a :: l) := by
  induction l with
  | nil => exact List.Perm.refl _
  | cons b bs ih =>
    by_cases h : strLe a b = true
    · simp [insTo, h]
    · simp only [insTo, h, if_false]
      exact (ih.cons b).trans (List.Perm.swap a b bs)

theorem sortStr_perm (l : List String) : (sortStr l).Perm l := by
  induction l with
  | nil => exact List.Perm.refl _
  | cons a as ih => exact (insTo_perm a (sortStr as)).trans (ih.cons a)

theorem mem_sortStr {x : String} {l : List String} : x ∈ sortStr l ↔ x ∈ l :=
  (sortStr_perm l).mem_iff

theorem pairwise_insTo {a : String} {l : List String}
    (h : l.Pairwise (fun x y => strLe x y = true)) :
    (insTo a l).Pairwise (fun x y => strLe x y = true) := by
  induction l with
  | nil => simp [insTo]
  | cons b bs ih =>
    rw [List.pairwise_cons] at h
    by_cases hab : strLe a b = true
    · simp only [insTo, hab, if_true]
      refine List.Pairwise.cons ?_ (List.Pairwise.cons h.1 h.2)
      intro x hx
      rcases List.mem_cons.mp hx with rfl | hx
      · exact hab
      · exact strLe_trans hab (h.1 x hx)
    · simp only [insTo, hab, if_false]
      have hba : strLe b a = true := (strLe_total a b).resolve_left hab
      refine List.Pairwise.cons ?_ (ih h.2)
      intro x hx
      rcases List.mem_cons.mp ((insTo_perm a bs).mem_iff.mp hx) with rfl | hxbs
      · exact hba
      · exact h.1 x hxbs

theorem sortStr_sorted (l : List String) :
    (sortStr l).Pairwise (fun x y => strLe x y = true) := by
  induction l with
  | nil => simp [sortStr]
  | cons a as ih => exact pairwise_insTo ih

theorem sortStr_nodup {l : List String} (h : l.Nodup) : (sortStr l).Nodup :=
  (sortStr_perm l).nodup_iff.mpr h

theorem addSet_nodup {l : List String} {x : String} (h : l.Nodup) :
    (addSet l x).Nodup := by
  unfold addSet
  split_ifs with hx
  · exact h
  · simp [List.nodup_append, h, hx]

theorem addSet_mem {l : List String} {x r : String} (h : r ∈ addSet l x) :
    r ∈ l ∨ r = x := by
  unfold addSet at h
  split_ifs at h with hx
  · exact Or.inl h
  · rcases List.mem_append.mp h with h | h
    · exact Or.inl h
    · exact Or.inr (List.mem_singleton.mp h)

/-! ## Helper lemmas: route normalization -/

theorem cpGo_slash (l : List Char) : cpGo ('/' :: l) false = '/' :: cpGo l false := by
  cases l <;> rfl

theorem cbGo_slash (l : List Char) : cbGo ('/' :: l) false = '/' :: cbGo l false := by
  simp [cbGo]

theorem cutQuery_slash (l : List Char) :
    cutQuery ('/' :: l) = '/' :: cutQuery l := by
  simp [cutQuery, List.takeWhile_cons]

theorem mem_dropTrail {x : Char} {l : List Char} (h : x ∈ dropTrailSlashes l) :
    x ∈ l := by
  induction l with
  | nil => simp [dropTrailSlashes] at h
  | cons c cs ih =>
    rw [dropTrailSlashes] at h
    cases hcs : dropTrailSlashes cs with
    | nil =>
      rw [hcs] at h
      split_ifs at h
      · simp at h
      · simp at h
        simp [h]
    | cons d ds =>
      rw [hcs] at h
      rcases List.mem_cons.mp h with rfl | h
      · exact List.mem_cons_self _ _
      · exact List.mem_cons_of_mem _ (ih (hcs ▸ h))

theorem getLast?_dropTrail (l : List Char) :
    (dropTrailSlashes l).getLast? ≠ some '/' := by
  induction l with
  | nil => simp [dropTrailSlashes]
  | cons c cs ih =>
    rw [dropTrailSlashes]
    cases hcs : dropTrailSlashes cs with
    | nil =>
      split_ifs with hc
      · simp
      · simp only [List.getLast?_singleton, ne_eq, Option.some.injEq]
        intro hceq
        rw [hceq] at hc
        simp at hc
    | cons d ds =>
      rw [List.getLast?_cons_cons]
      rw [hcs] at ih
      exact ih

theorem startsSlash_toList {route : String} (h : startsSlash route = true) :
    ∃ t, route.toList = '/' :: t := by
  unfold startsSlash at h
  split at h
  · next heq => exact ⟨_, heq⟩
  · exact absurd h (by simp)

theorem startsSlash_normalizeRoute {raw : String} (h : startsSlash raw = true) :
    startsSlash (normalizeRoute raw) = true := by
  obtain ⟨t, ht⟩ := startsSlash_toList h
  unfold normalizeRoute collapseParams collapseBrackets
  rw [ht, cpGo_slash, cbGo_slash, cutQuery_slash, dropTrailSlashes]
  cases hq : dropTrailSlashes (cutQuery (cbGo (cpGo t false) false)) with
  | nil =>
    split_ifs <;> simp_all [startsSlash]
  | cons d ds =>
    simp [startsSlash, toList_mk]

/-! ## C6 and C9 -/

/-- C6: `normalizeRoute` collapses `:name` and `[name]` parameter segments to
`:id` (witnessed on the two specified routes), strips the query string (the
result never contains `?`), and strips trailing slashes (the result is `"/"`
or does not end in a slash). -/
theorem normalizeRoute_contract :
    normalizeRoute "/orders/:orderId/cancel" = "/orders/:id/cancel" ∧
    normalizeRoute "/orders/[orderId]/cancel" = "/orders/:id/cancel" ∧
    (∀ route : String, (normalizeRoute route).toList.all (fun c => c ≠ '?') = true) ∧
    (∀ route : String,
      normalizeRoute route = "/" ∨
      ((normalizeRoute route).toList.getLast? == some '/') = false) := by
  refine ⟨by decide, by decide, ?_, ?_⟩
  · intro route
    rw [List.all_eq_true]
    intro x hx
    unfold normalizeRoute at hx
    split_ifs at hx with hempty
    · simp at hx
      simp [hx]
    · rw [toList_mk] at hx
      have hq := mem_dropTrail hx
      have := List.mem_takeWhile_imp hq
      simpa using this
  · intro route
    unfold normalizeRoute
    split_ifs with hempty
    · exact Or.inl rfl
    · refine Or.inr ?_
      rw [beq_eq_false_iff_ne]
      rw [toList_mk]
      exact getLast?_dropTrail _

/-- C9: a file whose read or scan throws is caught by the `try/catch` and
contributes nothing; the routes extracted from a file set containing such a
file are exactly those extracted with the file absent, for every position of
the failing file, every surrounding file set, and every limit. -/
theorem failedFile_isolated (pre post : List (Option (List String))) (limit : Nat) :
    extractRoutes (pre ++ none :: post) limit = extractRoutes (pre ++ post) limit := by
  unfold extractRoutes
  rw [List.foldl_append, List.foldl_append, List.foldl_cons]
  rfl

/-! ## Route-list invariants (C10, C5) -/

theorem routeStep_preserves (raw : String) {st : RouteState}
    (h1 : ∀ r ∈ st.publicRoutes,
      startsSlash r = true ∧ isValid r = true ∧ isInternal r = false)
    (h2 : ∀ r ∈ st.internalRoutes,
      startsSlash r = true ∧ isValid r = true ∧ isInternal r = true) :
    (∀ r ∈ (routeStep st raw).publicRoutes,
      startsSlash r = true ∧ isValid r = true ∧ isInternal r = false) ∧
    (∀ r ∈ (routeStep st raw).internalRoutes,
      startsSlash r = true ∧ isValid r = true ∧ isInternal r = true) := by
  unfold routeStep
  split_ifs with hs hv hi
  · refine ⟨h1, ?_⟩
    intro r hr
    rcases addSet_mem hr with hr | rfl
    · exact h2 r hr
    · exact ⟨startsSlash_normalizeRoute hs, hv, hi⟩
  · refine ⟨?_, h2⟩
    intro r hr
    rcases addSet_mem hr with hr | rfl
    · exact h1 r hr
    · exact ⟨startsSlash_normalizeRoute hs, hv, Bool.eq_false_iff.mpr hi⟩
  · exact ⟨h1, h2⟩
  · exact ⟨h1, h2⟩

theorem foldRoutes_preserves (files : List (Option (List String)))
    (st : RouteState)
    (h1 : ∀ r ∈ st.publicRoutes,
      startsSlash r = true ∧ isValid r = true ∧ isInternal r = false)
    (h2 : ∀ r ∈ st.internalRoutes,
      startsSlash r = true ∧ isValid r = true ∧ isInternal r = true) :
    (∀ r ∈ (files.foldl processFile st).publicRoutes,
      startsSlash r = true ∧ isValid r = true ∧ isInternal r = false) ∧
    (∀ r ∈ (files.foldl processFile st).internalRoutes,
      startsSlash r = true ∧ isValid r = true ∧ isInternal r = true) := by
  induction files generalizing st with
  | nil => exact ⟨h1, h2⟩
  | cons file rest ih =>
    rw [List.foldl_cons]
    cases file with
    | none => exact ih st h1 h2
    | some raws =>
      have hfile :
          (∀ r ∈ (raws.foldl routeStep st).publicRoutes,
            startsSlash r = true ∧ isValid r = true ∧ isInternal r = false) ∧
          (∀ r ∈ (raws.foldl routeStep st).internalRoutes,
            startsSlash r = true ∧ isValid r = true ∧ isInternal r = true) := by
        clear ih
        induction raws generalizing st with
        | nil => exact ⟨h1, h2⟩
        | cons raw rest2 ihr =>
          rw [List.foldl_cons]
          have hstep := routeStep_preserves raw h1 h2
          exact ihr _ hstep.1 hstep.2
      exact ih _ hfile.1 hfile.2

theorem mem_extractRoutes_public {files : List (Option (List String))}
    {limit : Nat} {r : String} (h : r ∈ (extractRoutes files limit).1) :
    startsSlash r = true ∧ isValid r = true ∧ isInternal r = false := by
  unfold extractRoutes at h
  have hmem : r ∈ (files.foldl processFile ⟨[], []⟩).publicRoutes :=
    mem_sortStr.mp ((List.take_sublist _ _).subset h)
  exact (foldRoutes_preserves files ⟨[], []⟩ (by simp) (by simp)).1 r hmem

theorem mem_extractRoutes_internal {files : List (Option (List String))}
    {limit : Nat} {r : String} (h : r ∈ (extractRoutes files limit).2) :
    startsSlash r = true ∧ isValid r = true ∧ isInternal r = true := by
  unfold extractRoutes at h
  have hmem : r ∈ (files.foldl processFile ⟨[], []⟩).internalRoutes :=
    mem_sortStr.mp ((List.take_sublist _ _).subset h)
  exact (foldRoutes_preserves files ⟨[], []⟩ (by simp) (by simp)).2 r hmem

/-- C10: the emitted `publicRoutes` and `internalRoutes` are disjoint (the
classification of a normalized route string is the pure function
`isInternal`, and each accepted route is added to exactly one set), and every
emitted route begins with `/` and passes every `isValid` skip test: it is not
all-slashes, not placeholder-only, and matches none of the
middleware/test/health prefixes. -/
theorem routeLists_disjoint_and_filtered (files : List (Option (List String)))
    (limit : Nat) (r : String) :
    (r ∈ (extractRoutes files limit).1 ∨ r ∈ (extractRoutes files limit).2 →
      startsSlash r = true ∧ slashOnly r.toList = false ∧
      placeholderOnly r.toList = false ∧ startsCI "/middleware" r.toList = false ∧
      startsCI "/test" r.toList = false ∧ startsCI "/health" r.toList = false) ∧
    ¬(r ∈ (extractRoutes files limit).1 ∧ r ∈ (extractRoutes files limit).2) := by
  constructor
  · intro h
    have hv : startsSlash r = true ∧ isValid r = true := by
      rcases h with h | h
      · exact ⟨(mem_extractRoutes_public h).1, (mem_extractRoutes_public h).2.1⟩
      · exact ⟨(mem_extractRoutes_internal h).1, (mem_extractRoutes_internal h).2.1⟩
    have := hv.2
    unfold isValid at this
    simp only [Bool.not_eq_true', Bool.or_eq_false_iff] at this
    exact ⟨hv.1, this.1.1.1.1, this.1.1.1.2, this.1.1.2, this.1.2, this.2⟩
  · rintro ⟨hp, hi⟩
    have h1 := (mem_extractRoutes_public hp).2.2
    have h2 := (mem_extractRoutes_internal hi).2.2
    rw [h1] at h2
    exact Bool.false_ne_true h2

/-- C10 witness: a concrete run — the public route `/orders` passes every
filter and is absent from the internal list. -/
theorem routeLists_disjoint_and_filtered_witness :
    ("/orders" ∈ (extractRoutes [some ["/orders", "/admin/x"]] 100).1) ∧
    startsSlash "/orders" = true ∧
    ((extractRoutes [some ["/orders", "/admin/x"]] 100).2.contains "/orders") = false := by
  refine ⟨by decide, ?_, by decide⟩
  exact ((routeLists_disjoint_and_filtered [some ["/orders", "/admin/x"]] 100
    "/orders").1 (Or.inl (by decide))).1

/-- C5 counterexample: the raw route `/users/:admin` contains the internal
keyword `admin`, but only inside a parameterized segment; normalization
collapses the segment to `:id` before `isInternal` runs, so the route is
emitted as public, not internal. -/
theorem keywordInParam_isPublic :
    extractRoutes [some ["/users/:admin"]] 100 = (["/users/:id"], []) ∧
    hasSub "admin".toList "/users/:admin".toList = true ∧
    isInternal (normalizeRoute "/users/:admin") = false := by
  decide

/-- C5 (amended): route visibility is computed on the normalized path — after
parameter collapsing, query stripping and trailing-slash stripping — as the
pure keyword test `isInternal`; every route in the internal list satisfies it
and every route in the public list fails it.  A keyword occurring only inside
a parameterized segment is erased by the collapse and does not mark the route
internal. -/
theorem visibility_from_normalized (files : List (Option (List String)))
    (limit : Nat) (r : String) :
    (r ∈ (extractRoutes files limit).2 → isInternal r = true) ∧
    (r ∈ (extractRoutes files limit).1 → isInternal r = false) :=
  ⟨fun h => (mem_extractRoutes_internal h).2.2,
   fun h => (mem_extractRoutes_public h).2.2⟩

/-- C5 amended witness: a concrete run. -/
theorem visibility_from_normalized_witness :
    isInternal "/admin/x" = true ∧ isInternal "/users/:id" = false :=
  ⟨(visibility_from_normalized [some ["/users/:admin", "/admin/x"]] 100
      "/admin/x").1 (by decide),
   (visibility_from_normalized [some ["/users/:admin", "/admin/x"]] 100
      "/users/:id").2 (by decide)⟩

/-! ## C7: idempotence of service-name canonicalization -/

theorem mk_append (a b : List Char) : String.mk a ++ String.mk b = String.mk (a ++ b) :=
  rfl

theorem toList_strAppend (a b : String) : (a ++ b).toList = a.toList ++ b.toList := by
  cases a
  cases b
  rfl

theorem capFirst_mk_cons (c : Char) (cs : List Char) :
    capFirst (String.mk (c :: cs)) = String.mk (c.toUpper :: cs) := rfl

theorem capFirst_append_Service (s : String) :
    capFirst (capFirst s ++ "Service") = capFirst s ++ "Service" := by
  rcases s with ⟨l⟩
  cases l with
  | nil => decide
  | cons c cs =>
    rw [capFirst_mk_cons, mk_append, List.cons_append, capFirst_mk_cons, toUpper_idem]

theorem hasSub_service_of_append (s : String) :
    hasSub "service".toList (lowStr (s ++ "Service").toList) = true := by
  rw [toList_strAppend, lowStr_append]
  have h : lowStr "Service".toList = "service".toList := by decide
  rw [h]
  exact hasSub_append_right hasSub_self

/-- A name already recognized as service-like, and fixed by `capFirst`, is a
fixed point of `normalizeServiceName`. -/
theorem normalizeServiceName_fixed {t : String}
    (h : (hasSub "service".toList (lowStr (capFirst t).toList) ||
          hasSub "controller".toList (lowStr (capFirst t).toList)) = true)
    (hcap : capFirst t = t) : normalizeServiceName t = t := by
  unfold normalizeServiceName
  rw [if_pos h, hcap]

/-- C7: name canonicalization is idempotent — for every input string,
`canonicalize(canonicalize(x)) == canonicalize(x)`.  The single canonicalizer
of the extractor, `normalizeServiceName`, carries its one role (service)
built in, so the role-hint quantification is over that one role. -/
theorem normalizeServiceName_idem (s : String) :
    normalizeServiceName (normalizeServiceName s) = normalizeServiceName s := by
  by_cases hc : (hasSub "service".toList (lowStr (capFirst s).toList) ||
      hasSub "controller".toList (lowStr (capFirst s).toList)) = true
  · have hs : normalizeServiceName s = capFirst s := by
      unfold normalizeServiceName
      rw [if_pos hc]
    rw [hs]
    exact normalizeServiceName_fixed (by rw [capFirst_idem]; exact hc) (capFirst_idem s)
  · rw [Bool.or_eq_true_iff, not_or, Bool.not_eq_true, Bool.not_eq_true] at hc
    have hserv := hc.1
    have hctrl := hc.2
    have hend1 : endsWithL "Service".toList (capFirst s).toList = false := by
      cases h1 : endsWithL "Service".toList (capFirst s).toList
      · rfl
      · have := hasSub_low_of_endsWith h1
        have hlow : lowStr "Service".toList = "service".toList := by decide
        rw [hlow] at this
        rw [this] at hserv
        exact absurd hserv (by simp)
    have hend2 : endsWithL "Controller".toList (capFirst s).toList = false := by
      cases h1 : endsWithL "Controller".toList (capFirst s).toList
      · rfl
      · have := hasSub_low_of_endsWith h1
        have hlow : lowStr "Controller".toList = "controller".toList := by decide
        rw [hlow] at this
        rw [this] at hctrl
        exact absurd hctrl (by simp)
    have hs : normalizeServiceName s = capFirst s ++ "Service" := by
      unfold normalizeServiceName
      rw [if_neg (by rw [hserv, hctrl]; simp), if_neg (by rw [hend1, hend2]; simp)]
    rw [hs]
    refine normalizeServiceName_fixed ?_ ?_
    · rw [capFirst_append_Service]
      exact Bool.or_eq_true_iff.mpr (Or.inl (hasSub_service_of_append (capFirst s)))
    · exact capFirst_append_Service s

/-! ## Helper lemmas: JS-object maps -/

theorem getKey_setKey_self (m : List (String × String)) (k v : String) :
    getKey (setKey m k v) k = some v := by
  induction m with
  | nil => simp [setKey, getKey]
  | cons p rest ih =>
    by_cases h : p.1 = k
    · simp [setKey, getKey, h]
    · simp [setKey, getKey, h, ih]

theorem getKey_setKey_ne (m : List (String × String)) {k j : String} (v : String)
    (h : j ≠ k) : getKey (setKey m k v) j = getKey m j := by
  have hkj : ¬(k = j) := fun he => h he.symm
  induction m with
  | nil => simp [setKey, getKey, hkj]
  | cons p rest ih =>
    by_cases hp : p.1 = k
    · have hpj : ¬(p.1 = j) := by rw [hp]; exact hkj
      simp [setKey, getKey, hp, hpj, hkj]
    · by_cases hj : p.1 = j
      · simp [setKey, getKey, hp, hj, h]
      · simp [setKey, getKey, hp, hj, ih]

theorem getKey_setKey_cases {m : List (String × String)} {k n v w : String}
    (h : getKey (setKey m k w) n = some v) :
    (n = k ∧ v = w) ∨ getKey m n = some v := by
  by_cases hn : n = k
  · subst hn
    rw [getKey_setKey_self] at h
    exact Or.inl ⟨rfl, (Option.some_inj.mp h).symm⟩
  · rw [getKey_setKey_ne m w hn] at h
    exact Or.inr h

theorem strAppend_ne_empty {a : String} (b : String) (h : a ≠ "") :
    a ++ b ≠ "" := by
  rcases a with ⟨l₁⟩
  rcases b with ⟨l₂⟩
  intro he
  apply h
  have hd : l₁ ++ l₂ = ([] : List Char) := congrArg String.data he
  have h1 : l₁ = [] := (List.append_eq_nil.mp hd).1
  rw [h1]

/-! ## C1: route-local auth beats file-global auth -/

theorem firstPatternHit_ne_empty {cm : List Char} {p : String}
    (tbl : List (String × String)) (htbl : ∀ q ∈ tbl, q.2 ≠ "")
    (h : firstPatternHit cm tbl = some p) : p ≠ "" := by
  induction tbl with
  | nil => simp [firstPatternHit] at h
  | cons q rest ih =>
    rw [firstPatternHit] at h
    split_ifs at h with hq
    · cases h
      exact htbl q (List.mem_cons_self _ _)
    · exact ih (fun x hx => htbl x (List.mem_cons_of_mem _ hx)) h

theorem authPolicyOfClean_ne_empty {cm : List Char} {p : String}
    (h : authPolicyOfClean cm = some p) : p ≠ "" := by
  unfold authPolicyOfClean at h
  cases h1 : firstPatternHit cm authPatterns with
  | some q =>
    rw [h1] at h
    cases h
    exact firstPatternHit_ne_empty authPatterns (by decide) h1
  | none =>
    rw [h1] at h
    cases h2 : scanCall "role".toList "requireRole".toList cm with
    | some role =>
      rw [h2] at h
      cases h
      exact strAppend_ne_empty _ (by decide)
    | none =>
      rw [h2] at h
      cases h3 : scanCall "permission".toList "requirePermission".toList cm with
      | some perm =>
        rw [h3] at h
        cases h
        exact strAppend_ne_empty _ (by decide)
      | none =>
        rw [h3] at h
        split_ifs at h
        cases h
        decide

theorem extractAuth_ne_empty {mw p : String}
    (h : extractAuthPolicyFromMiddleware mw = some p) : p ≠ "" :=
  authPolicyOfClean_ne_empty h

theorem falsyAt_of_some {st : List (String × String)} {k v : String}
    (h : getKey st k = some v) (hne : v ≠ "") : falsyAt st k = false := by
  unfold falsyAt
  rw [h]
  simpa using hne

theorem routeLocalPass_keeps {ms : List (String × String × String)}
    {st : List (String × String)} {k : String}
    (h : ∃ v, getKey st k = some v ∧ v ≠ "") :
    ∃ v, getKey (routeLocalPass ms st) k = some v ∧ v ≠ "" := by
  induction ms generalizing st with
  | nil => exact h
  | cons a as ih =>
    rw [routeLocalPass, List.foldl_cons]
    apply ih
    unfold routeLocalStep
    cases hx : extractAuthPolicyFromMiddleware a.2.2 with
    | none => exact h
    | some policy =>
      by_cases hk : routeKey a.1 a.2.1 = k
      · subst hk
        exact ⟨policy, getKey_setKey_self _ _ _, extractAuth_ne_empty hx⟩
      · obtain ⟨v, hv, hne⟩ := h
        exact ⟨v, by rw [getKey_setKey_ne _ _ (fun he => hk he.symm)]; exact hv, hne⟩

theorem routeLocalPass_sets {ms : List (String × String × String)}
    {st : List (String × String)} {m r mw p : String}
    (hmem : (m, r, mw) ∈ ms) (hp : extractAuthPolicyFromMiddleware mw = some p) :
    ∃ v, getKey (routeLocalPass ms st) (routeKey m r) = some v ∧ v ≠ "" := by
  induction ms generalizing st with
  | nil => simp at hmem
  | cons a as ih =>
    rcases List.mem_cons.mp hmem with rfl | hmem2
    · rw [routeLocalPass, List.foldl_cons]
      apply routeLocalPass_keeps
      unfold routeLocalStep
      simp only [hp]
      exact ⟨p, getKey_setKey_self _ _ _, extractAuth_ne_empty hp⟩
    · rw [routeLocalPass, List.foldl_cons]
      exact ih hmem2

theorem applyGlobal_keeps {rs : List (String × String)}
    {st : List (String × String)} {k v : String} (policy : String)
    (h : getKey st k = some v) (hne : v ≠ "") :
    getKey (applyGlobalAuthPolicy rs policy st) k = some v := by
  induction rs generalizing st with
  | nil => exact h
  | cons r rest ih =>
    rw [applyGlobalAuthPolicy, List.foldl_cons]
    have hstep : getKey (globalWrite policy st r) k = some v := by
      unfold globalWrite
      by_cases hk : routeKey r.1 r.2 = k
      · rw [hk, falsyAt_of_some h hne]
        simpa using h
      · split_ifs
        · rw [getKey_setKey_ne _ _ (fun he => hk he.symm)]
          exact h
        · exact h
    exact ih hstep

theorem applyPath_keeps {rs : List (String × String)}
    {st : List (String × String)} {k v : String} (basePath policy : String)
    (h : getKey st k = some v) (hne : v ≠ "") :
    getKey (applyPathBasedAuthPolicy rs basePath policy st) k = some v := by
  induction rs generalizing st with
  | nil => exact h
  | cons r rest ih =>
    rw [applyPathBasedAuthPolicy, List.foldl_cons]
    have hstep : getKey (pathWrite basePath policy st r) k = some v := by
      unfold pathWrite
      by_cases hk : routeKey r.1 r.2 = k
      · rw [hk, falsyAt_of_some h hne]
        simp only [Bool.and_false, if_false]
        exact h
      · split_ifs
        · rw [getKey_setKey_ne _ _ (fun he => hk he.symm)]
          exact h
        · exact h
    exact ih hstep

theorem globalUsePass_keeps {uses : List String} {rs : List (String × String)}
    {st : List (String × String)} {k v : String}
    (h : getKey st k = some v) (hne : v ≠ "") :
    getKey (globalUsePass uses rs st) k = some v := by
  induction uses generalizing st with
  | nil => exact h
  | cons mw rest ih =>
    rw [globalUsePass, List.foldl_cons]
    have hstep : getKey (globalUseStep rs st mw) k = some v := by
      unfold globalUseStep
      cases hx : extractAuthPolicyFromMiddleware mw with
      | none => exact h
      | some policy => exact applyGlobal_keeps policy h hne
    exact ih hstep

theorem condUsePass_keeps {conds : List (String × String)}
    {rs : List (String × String)} {st : List (String × String)} {k v : String}
    (h : getKey st k = some v) (hne : v ≠ "") :
    getKey (condUsePass conds rs st) k = some v := by
  induction conds generalizing st with
  | nil => exact h
  | cons c rest ih =>
    rw [condUsePass, List.foldl_cons]
    have hstep : getKey (condUseStep rs st c) k = some v := by
      unfold condUseStep
      cases hx : extractAuthPolicyFromMiddleware c.2 with
      | none => exact h
      | some policy => exact applyPath_keeps c.1 policy h hne
    exact ih hstep

/-- C1: within one file, a route that has a route-local auth fragment keeps a
route-local policy in the final map of `analyzeExpressMiddleware`: the value
at its key after the full run is exactly the value after the route-local loop
(some non-empty route-local policy), for every placement and ordering of the
`router.use` file-global and path-scoped fragments, every route-scan match
list, and every prior state. -/
theorem routeLocal_beats_global (routeMw : List (String × String × String))
    (uses : List String) (conds : List (String × String))
    (allRoutes : List (String × String)) (st : List (String × String))
    (m r mw p : String) (hmem : (m, r, mw) ∈ routeMw)
    (hp : extractAuthPolicyFromMiddleware mw = some p) :
    ∃ v, v ≠ "" ∧
      getKey (routeLocalPass routeMw st) (routeKey m r) = some v ∧
      getKey (analyzeExpressMiddleware routeMw uses conds allRoutes st)
        (routeKey m r) = some v := by
  obtain ⟨v, hv, hne⟩ := routeLocalPass_sets hmem hp
  refine ⟨v, hne, hv, ?_⟩
  unfold analyzeExpressMiddleware
  exact condUsePass_keeps (globalUsePass_keeps hv hne) hne

/-- C1 witness: the specification's own example — a route-local `AdminOnly`
fragment together with a file-global `Authenticated` fragment leaves
`AdminOnly` in the final map. -/
theorem routeLocal_beats_global_witness :
    getKey (analyzeExpressMiddleware [("get", "/orders", "authMiddleware.isAdmin")]
        ["authenticate"] [] [("get", "/orders"), ("post", "/orders")] [])
      (routeKey "get" "/orders") = some "AdminOnly" := by
  obtain ⟨v, hne, hloc, hfull⟩ :=
    routeLocal_beats_global [("get", "/orders", "authMiddleware.isAdmin")]
      ["authenticate"] [] [("get", "/orders"), ("post", "/orders")] []
      "get" "/orders" "authMiddleware.isAdmin" "AdminOnly"
      (by decide) (by decide)
  have hcomp :
      getKey (routeLocalPass [("get", "/orders", "authMiddleware.isAdmin")] [])
        (routeKey "get" "/orders") = some "AdminOnly" := by decide
  rw [hloc] at hcomp
  rw [← Option.some_inj.mp hcomp]
  exact hfull

/-! ## C4: the detailed field pass beats the simple field pass -/

theorem lookupTable_val {tbl : List (String × String)} {t v : String}
    (h : lookupTable tbl t = some v) : ∃ q ∈ tbl, q.2 = v := by
  induction tbl with
  | nil => simp [lookupTable] at h
  | cons q rest ih =>
    rw [lookupTable] at h
    split_ifs at h with hq
    · exact ⟨q, List.mem_cons_self _ _, Option.some_inj.mp h⟩
    · obtain ⟨q', hq', hv⟩ := ih h
      exact ⟨q', List.mem_cons_of_mem _ hq', hv⟩

theorem normalizeMongooseType_ne_empty (t : String) :
    normalizeMongooseType t ≠ "" := by
  unfold normalizeMongooseType
  cases h : lookupTable mongooseTypeMap t with
  | some v =>
    obtain ⟨q, hq, hv⟩ := lookupTable_val h
    have : ∀ q ∈ mongooseTypeMap, q.2 ≠ "" := by decide
    exact hv ▸ this q hq
  | none =>
    split_ifs with ht
    · decide
    · exact ht

theorem mongooseTypePart_ne_empty (l : List Char) : mongooseTypePart l ≠ "" := by
  unfold mongooseTypePart
  cases scanFor "enum:".toList contEnumTok l with
  | some inner => exact strAppend_ne_empty _ (strAppend_ne_empty _ (by decide))
  | none =>
    cases scanFor "type:".toList contTypeTok l with
    | some t => exact normalizeMongooseType_ne_empty _
    | none => decide

theorem parseField_ne_empty (d : String) : parseMongooseFieldDefinition d ≠ "" := by
  unfold parseMongooseFieldDefinition
  split_ifs
  · exact mongooseTypePart_ne_empty _
  · exact strAppend_ne_empty _
      (strAppend_ne_empty _ (strAppend_ne_empty _ (mongooseTypePart_ne_empty _)))

theorem detailStep_vals {m : List (String × String)}
    (hm : ∀ n v, getKey m n = some v → v ≠ "") (p : String × String) :
    ∀ n v, getKey (mongooseDetailStep m p) n = some v → v ≠ "" := by
  intro n v h
  unfold mongooseDetailStep at h
  rcases getKey_setKey_cases h with ⟨_, rfl⟩ | h
  · exact parseField_ne_empty _
  · exact hm n v h

theorem detailedPass_vals (detailed : List (String × String)) :
    ∀ n v, getKey (detailedPass detailed) n = some v → v ≠ "" := by
  unfold detailedPass
  have key : ∀ (lst : List (String × String)) (m : List (String × String)),
      (∀ n v, getKey m n = some v → v ≠ "") →
      ∀ n v, getKey (lst.foldl mongooseDetailStep m) n = some v → v ≠ "" := by
    intro lst
    induction lst with
    | nil => intro m hm; exact hm
    | cons p ps ih =>
      intro m hm
      rw [List.foldl_cons]
      exact ih _ (detailStep_vals hm p)
  exact key detailed [] (by intro n v h; simp [getKey] at h)

theorem simpleFold_keeps {simple : List (String × String)}
    {m : List (String × String)} {n v : String}
    (hm : ∀ n' v', getKey m n' = some v' → v' ≠ "")
    (h : getKey m n = some v) :
    getKey (simple.foldl mongooseSimpleStep m) n = some v := by
  induction simple generalizing m with
  | nil => exact h
  | cons p ps ih =>
    rw [List.foldl_cons]
    have hvne : v ≠ "" := hm n v h
    by_cases hk : String.mk (trimL p.1.toList) = n
    · have hstep : mongooseSimpleStep m p = m := by
        unfold mongooseSimpleStep
        rw [hk, falsyAt_of_some h hvne]
        simp
      rw [hstep]
      exact ih hm h
    · have hinv : ∀ n' v', getKey (mongooseSimpleStep m p) n' = some v' → v' ≠ "" := by
        intro n' v' h'
        unfold mongooseSimpleStep at h'
        split_ifs at h'
        · rcases getKey_setKey_cases h' with ⟨_, rfl⟩ | h'
          · exact normalizeMongooseType_ne_empty _
          · exact hm n' v' h'
        · exact hm n' v' h'
      have hkeep : getKey (mongooseSimpleStep m p) n = some v := by
        unfold mongooseSimpleStep
        split_ifs
        · rw [getKey_setKey_ne _ _ (fun he => hk he.symm)]
          exact h
        · exact h
      exact ih hinv hkeep

/-- C4: within one file's `parseMongooseFields` run for one entity, a field
populated by the detailed per-field-object pass is never overwritten by the
simple one-line pass — the final record for that field name is exactly the
detailed pass's record, for every pair of match lists. -/
theorem detailedField_kept (detailed simple : List (String × String))
    (n v : String) (h : getKey (detailedPass detailed) n = some v) :
    getKey (parseMongooseFields detailed simple) n = some v := by
  unfold parseMongooseFields
  exact simpleFold_keeps (detailedPass_vals detailed) h

/-- C4 witness: the specification's own example — `status` discovered as
`{type: String, required: true}` by the detailed pass and then as `String` by
the simple pass keeps `String (required)`. -/
theorem detailedField_kept_witness :
    getKey (parseMongooseFields [("status", "type: String, required: true")]
      [("status", "String")]) "status" = some "String (required)" :=
  detailedField_kept [("status", "type: String, required: true")]
    [("status", "String")] "status" "String (required)" (by decide)

/-! ## C8: dependency deduplication -/

theorem foldl_nodup {β : Type} (f : List String → β → List String)
    (hf : ∀ d x, d.Nodup → (f d x).Nodup) (l : List β) :
    ∀ d, d.Nodup → (l.foldl f d).Nodup := by
  induction l with
  | nil => intro d hd; exact hd
  | cons x xs ih =>
    intro d hd
    rw [List.foldl_cons]
    exact ih _ (hf d x hd)

theorem addIfTruthy_nodup {d : List String} {x : String} (h : d.Nodup) :
    (addIfTruthy d x).Nodup := by
  unfold addIfTruthy
  split_ifs
  · exact h
  · exact addSet_nodup h

theorem importStep_nodup {d : List String} {p : String} (h : d.Nodup) :
    (importStep d p).Nodup := by
  unfold importStep
  split_ifs
  · cases extractServiceNameFromPath p with
    | some n => exact addIfTruthy_nodup h
    | none => exact h
  · exact h

theorem collectDeps_nodup (i r cp cpar inst mp sc : List String) :
    (collectDeps i r cp cpar inst mp sc).Nodup := by
  unfold collectDeps
  apply foldl_nodup _ (fun d x hd => addSet_nodup hd)
  apply foldl_nodup _ (fun d x hd => addIfTruthy_nodup hd)
  apply foldl_nodup _ (fun d x hd => addSet_nodup hd)
  apply foldl_nodup _ (fun d x hd => addIfTruthy_nodup hd)
  apply foldl_nodup _ (fun d x hd => addIfTruthy_nodup hd)
  apply foldl_nodup _ (fun d x hd => importStep_nodup hd)
  apply foldl_nodup _ (fun d x hd => importStep_nodup hd)
  exact List.nodup_nil

/-- C8 counterexample: the same target detected by the direct-instantiation
signal as `paymentService` and by the method-call signal (normalized to
`PaymentService`) yields two entries in the stored dependency list that are
equal after lower-casing — deduplication is by exact string, not by
case-insensitive name. -/
theorem caseVariant_duplicate_edge :
    depsEntry [] [] [] [] ["paymentService"] ["paymentService"] [] =
      ["PaymentService", "paymentService"] ∧
    String.mk (lowStr "PaymentService".toList) =
      String.mk (lowStr "paymentService".toList) ∧
    (("PaymentService" : String) == "paymentService") = false := by
  decide

/-- C8 (amended): the stored per-service dependency list is duplicate-free by
exact string equality (JS `Set` semantics — a target detected by several of
the four signal types under the same final casing collapses to one edge) and
is sorted; but constructor-injection and method-call names are normalized
only by capitalizing the first letter while instantiation and static-call
names are added verbatim, so one target can appear under several casings. -/
theorem depsEntry_nodup_sorted (i r cp cpar inst mp sc : List String) :
    (depsEntry i r cp cpar inst mp sc).Nodup ∧
    (depsEntry i r cp cpar inst mp sc).Pairwise (fun a b => strLe a b = true) :=
  ⟨sortStr_nodup (collectDeps_nodup i r cp cpar inst mp sc),
   sortStr_sorted _⟩

/-! ## C2: determinism of the emitted document -/

theorem runSummarizer_split (t : String) (limit : Nat) (f : ExtractedFacts) :
    runSummarizer t limit f = sPre ++ (quoteStr t ++ sPost limit f) := by
  unfold runSummarizer summaryJson jObj topFields sPre sPost
  simp [joinSep, applyLimits, mkSummary, String.append_assoc]

set_option maxRecDepth 8000

/-- C2 counterexample: two runs over the identical (empty) file set, at two
different wall-clock instants, emit different bytes — the document embeds the
`generatedAt` timestamp taken at run time. -/
theorem timestamp_breaks_byte_identity :
    (runSummarizer "2024-01-01T00:00:00.000Z" 100 factsEmpty ==
     runSummarizer "2024-01-01T00:00:01.000Z" 100 factsEmpty) = false := by
  decide

/-- C2 (amended): for a fixed file set with fixed content (fixed extracted
facts) and a fixed limit, the emitted JSON documents of two runs are
byte-identical outside the `generatedAt` timestamp value: both factor as the
same constant prefix, the escaped timestamp, and the same suffix. -/
theorem outputs_differ_only_in_timestamp (t1 t2 : String) (limit : Nat)
    (f : ExtractedFacts) :
    ∃ pre post,
      runSummarizer t1 limit f = pre ++ (quoteStr t1 ++ post) ∧
      runSummarizer t2 limit f = pre ++ (quoteStr t2 ++ post) :=
  ⟨sPre, sPost limit f, runSummarizer_split t1 limit f,
   runSummarizer_split t2 limit f⟩

/-! ## C3: sorting and truncation of emitted arrays -/

/-- C3 counterexample: `applyLimits` slices only modules, services, routes
and dbModels; a per-service dependency list is emitted unsliced, so with
`limit = 1` a two-element dependency list survives into the emitted document
(both entries appear in the output bytes). -/
theorem depsList_not_truncated :
    (applyLimits 1 (mkSummary "2024-01-01T00:00:00.000Z" factsDeps)).serviceDependencies
      = [("NotificationService", ["EmailService", "SmsService"])] ∧
    hasSub "SmsService".toList
      (runSummarizer "2024-01-01T00:00:00.000Z" 1 factsDeps).toList = true ∧
    hasSub "EmailService".toList
      (runSummarizer "2024-01-01T00:00:00.000Z" 1 factsDeps).toList = true ∧
    1 < (["EmailService", "SmsService"] : List String).length := by
  refine ⟨rfl, by decide, by decide, by decide⟩

/-- C3 (amended): the models array (like the other five sliced arrays) is
deduplicated, sorted lexicographically, and truncated to the lexicographic
prefix of length `limit` — never an arbitrary selection — and survives
`applyLimits` unchanged; with `limit = 2` and models
`["Zebra", "Apple", "Mango"]` the emission is exactly `["Apple", "Mango"]`.
Dependency lists, however, are sorted but not truncated (see the
counterexample). -/
theorem dbModels_sorted_truncated (names : List String) (limit : Nat)
    (t : String) (f : ExtractedFacts) :
    (applyLimits limit (mkSummary t
        { f with dbModels := dbModelsEmitted names limit })).dbModels
      = dbModelsEmitted names limit ∧
    (dbModelsEmitted names limit).Pairwise (fun a b => strLe a b = true) ∧
    (dbModelsEmitted names limit).length ≤ limit ∧
    dbModelsEmitted ["Zebra", "Apple", "Mango"] 2 = ["Apple", "Mango"] := by
  refine ⟨?_, ?_, ?_, by decide⟩
  · simp [applyLimits, mkSummary, dbModelsEmitted, List.take_take]
  · exact List.Pairwise.sublist (List.take_sublist _ _) (sortStr_sorted _)
  · rw [dbModelsEmitted, List.length_take]
    exact min_le_left _ _

end CodebaseSummarizer
